import Mathlib

/-!
Verification of the filesystem-synchronization scripts of this repository
(`sync-filesystem.js`, `sync-filesystem-watch.js`, and the unnamed sibling
script `src/unnamed/part_000`).

The repository's state is modelled as a flat map from relative paths
(lists of path components, rooted at the repository root) to nodes, where a
node is a directory marker or a file with its text content.  The source tree
being scanned is modelled as a list of entries (files with contents, and
directories with child entries), corresponding to what `fs.readdirSync` and
`fs.statSync` reveal in directory-listing order.  All definitions are
translated from the JavaScript source; string constants reproduce the source
templates byte for byte (braces are written with \x7b/\x7d escapes and
apostrophes with \x27 escapes).
-/

namespace DocsSync

/-- A filesystem node: a directory, or a file with its full text content. -/
inductive Node where
  | dir : Node
  | file (content : String) : Node
deriving DecidableEq, Repr

/-- A path, as a list of components relative to the repository root. -/
abbrev Path := List String

/-- The target-side filesystem state: a partial map from paths to nodes.
`none` means the path does not exist. -/
abbrev FS := Path → Option Node

/-- Write `v` at path `p`, overwriting whatever was there (`fs.writeFileSync`
semantics for files; also used for creating a single directory entry). -/
def setK (m : FS) (p : Path) (v : Node) : FS :=
  fun q => if q = p then some v else m q

/-- The static configuration record of `sync-filesystem.js` (lines 21-68). -/
structure Config where
  excludeDirs : List String
  excludeFiles : List String
  includeExtensions : List String
  addFrontmatter : Bool
  createIndexFiles : Bool

/-- The `config` object of `sync-filesystem.js`, verbatim. -/
def config : Config :=
  { excludeDirs := ["node_modules", ".git", ".github", "build", ".docusaurus",
      "static", "src", "docs", ".cache-loader", "versioned_docs",
      "versioned_sidebars"]
    excludeFiles := ["package.json", "package-lock.json", "docusaurus.config.js",
      "sidebars.js", "babel.config.js", ".gitignore", ".npmrc", "README.md",
      "LICENSE", ".DS_Store"]
    includeExtensions := [".md", ".mdx"]
    addFrontmatter := true
    createIndexFiles := true }

/-- JavaScript `String.prototype.startsWith`, over code points (executable in
the kernel, unlike `String.startsWith`). -/
def jsStartsWith (s pre : String) : Bool :=
  pre.data.isPrefixOf s.data

/-- JavaScript `String.prototype.endsWith`, over code points. -/
def jsEndsWith (s suf : String) : Bool :=
  suf.data.isSuffixOf s.data

/-- JavaScript `String.prototype.trim`: strip leading and trailing
whitespace (ASCII whitespace, which is all that occurs here). -/
def jsTrim (s : String) : String :=
  ⟨((s.data.dropWhile Char.isWhitespace).reverse.dropWhile Char.isWhitespace).reverse⟩

/-- Drop the last `n` characters of a string. -/
def strDropRight (s : String) (n : Nat) : String :=
  ⟨s.data.take (s.data.length - n)⟩

/-- Index (0-based) of the last `.` character of a character list;
helper for `extname`. -/
def lastDotAux : List Char → Nat → Option Nat → Option Nat
  | [], _, acc => acc
  | c :: cs, i, acc => lastDotAux cs (i + 1) (if c = '.' then some i else acc)

/-- `path.extname` restricted to bare file names (no separators): the suffix
from the last `.`, where a dot in the first position (hidden files like
`.gitignore`) does not start an extension. -/
def extname (s : String) : String :=
  match lastDotAux s.toList 0 none with
  | some i => if i = 0 then "" else String.mk (s.toList.drop i)
  | none => ""

/-- `isExcludedDir` (sync-filesystem.js lines 77-79):
`config.excludeDirs.includes(dirName) || dirName.startsWith('.')`. -/
def isExcludedDir (dirName : String) : Bool :=
  config.excludeDirs.contains dirName || jsStartsWith dirName "."

/-- `isExcludedFile` (sync-filesystem.js lines 84-86):
`config.excludeFiles.includes(fileName) || fileName.startsWith('.')`. -/
def isExcludedFile (fileName : String) : Bool :=
  config.excludeFiles.contains fileName || jsStartsWith fileName "."

/-- `shouldSyncFile` (sync-filesystem.js lines 91-94): the extension is in the
include list and the file is not excluded. -/
def shouldSyncFile (fileName : String) : Bool :=
  config.includeExtensions.contains (extname fileName) && !isExcludedFile fileName

/-- `hasFrontmatter` (sync-filesystem.js lines 99-101):
`content.trim().startsWith('---')`. -/
def hasFrontmatter (content : String) : Bool :=
  jsStartsWith (jsTrim content) "---"

/-- The effect of `fileName.replace(/\.mdx?$/, '')`: strip one trailing
`.mdx` or `.md`. -/
def stripMdExt (s : String) : String :=
  if jsEndsWith s ".mdx" then strDropRight s 4
  else if jsEndsWith s ".md" then strDropRight s 3
  else s

/-- The effect of `.replace(/[-_]/g, ' ')`: replace every `-` and `_`
character by a space. -/
def sepsToSpaces (s : String) : String :=
  ⟨s.data.map (fun c => if c = '-' || c = '_' then ' ' else c)⟩

/-- `generateFrontmatter` (sync-filesystem.js lines 106-115).  The source also
receives the file's path, but only uses the base name. -/
def generateFrontmatter (fileName : String) : String :=
  "---\ntitle: " ++ sepsToSpaces (stripMdExt fileName) ++
    "\nsidebar_position: auto\n---\n\n"

/-- `ensureFrontmatter` (sync-filesystem.js lines 120-130).  The model passes
the file's base name where the source passes the full path and takes
`path.basename` of it (`path.basename` is the identity on bare names). -/
def ensureFrontmatter (fileName content : String) : String :=
  if !config.addFrontmatter then content
  else if !hasFrontmatter content then generateFrontmatter fileName ++ content
  else content

/-- All prefixes of a path, shortest first (including the empty path and the
path itself); the directories `fs.mkdirSync(p, { recursive: true })` walks. -/
def prefixesOf (p : Path) : List Path :=
  (List.range (p.length + 1)).map (fun i => p.take i)

/-- `fs.mkdirSync(p, { recursive: true })`: create every missing prefix of
`p` as a directory; existing entries are left untouched. -/
def mkdirAll (m : FS) (p : Path) : FS :=
  (prefixesOf p).foldl (fun acc q => if (acc q).isSome then acc else setK acc q Node.dir) m

/-- `ensureDir` (sync-filesystem.js lines 135-139): create the directory
(recursively) only when the path does not exist yet. -/
def ensureDir (m : FS) (p : Path) : FS :=
  if (m p).isSome then m else mkdirAll m p

/-- `syncFile` (sync-filesystem.js lines 144-155): read, ensure a
frontmatter block, create the parent directory, and write the processed
content to the target path, overwriting any existing file. -/
def syncFile (fileName content : String) (targetPath : Path) (m : FS) : FS :=
  setK (ensureDir m targetPath.dropLast) targetPath
    (Node.file (ensureFrontmatter fileName content))

/-- The content written by `createIndexFile` (sync-filesystem.js
lines 170-182), including the Russian boilerplate body. -/
def indexContent (dirName : String) : String :=
  let title := sepsToSpaces dirName
  "---\ntitle: " ++ title ++ "\nsidebar_position: 1\n---\n\n# " ++ title ++
    "\n\nЭта папка содержит документацию по теме \"" ++ title ++
    "\".\n\n## Содержание\n\nВыберите раздел в боковом меню слева.\n"

/-- `createIndexFile` (sync-filesystem.js lines 160-186): synthesize
`index.md` in the given target directory unless the feature is disabled or an
index already exists there. -/
def createIndexFile (dirPath : Path) (dirName : String) (m : FS) : FS :=
  if !config.createIndexFiles then m
  else if (m (dirPath ++ ["index.md"])).isSome then m
  else setK m (dirPath ++ ["index.md"]) (Node.file (indexContent dirName))

/-- A source-tree entry as revealed by `fs.readdirSync`/`fs.statSync`: a file
with its content, or a directory with its child entries. -/
inductive SEntry where
  | file (name content : String) : SEntry
  | dir (name : String) (children : List SEntry) : SEntry
deriving Repr

/-- The `items.forEach` loop body of `syncDirectory` (sync-filesystem.js
lines 202-230), folded over the listed entries: excluded directories are
skipped before recursion; non-excluded directories are recursed into
(creating the target directory first, as `syncDirectory` does on entry) and
then receive an `index.md`; files are synced when `shouldSyncFile` holds. -/
def syncList : List SEntry → Path → FS → FS
  | [], _, m => m
  | SEntry.file name content :: rest, tgt, m =>
      syncList rest tgt
        (if shouldSyncFile name then syncFile name content (tgt ++ [name]) m else m)
  | SEntry.dir name children :: rest, tgt, m =>
      syncList rest tgt
        (if isExcludedDir name then m
         else
           createIndexFile (tgt ++ [name]) name
             (syncList children (tgt ++ [name]) (ensureDir m (tgt ++ [name]))))

/-- `syncDirectory` (sync-filesystem.js lines 195-231): create the target
directory, then process the listed entries in order. -/
def syncDirectory (entries : List SEntry) (targetDir : Path) (m : FS) : FS :=
  syncList entries targetDir (ensureDir m targetDir)

/-- The path of the navigation manifest, relative to the repository root. -/
def sidebarsPathKey : Path := ["sidebars.js"]

/-- The template written by `generateSidebars` in `sync-filesystem.js`
(lines 239-260), verbatim. -/
def sidebarsContent : String :=
  "/**\n * Автоматически сгенерированный sidebars.js\n * \n * Этот файл создан автоматически на основе структуры папки docs/\n * Для регенерации запустите: npm run sync-filesystem\n */\n\n// @ts-check\n\n/** @type \x7bimport(\x27@docusaurus/plugin-content-docs\x27).SidebarsConfig\x7d */\nconst sidebars = \x7b\n  // Автоматическая генерация из всей структуры docs/\n  mainSidebar: [\n    \x7b\n      type: \x27autogenerated\x27,\n      dirName: \x27.\x27, // Генерируем из корня docs/\n    \x7d,\n  ],\n\x7d;\n\nmodule.exports = sidebars;\n"

/-- `generateSidebars` (sync-filesystem.js lines 236-264): writes the
manifest template to `sidebars.js` at the repository root, unconditionally. -/
def generateSidebars (m : FS) : FS :=
  setK m sidebarsPathKey (Node.file sidebarsContent)

namespace Part000

/-- The template written by `generateSidebars` in `src/unnamed/part_000`
(lines 202-222), verbatim. -/
def sidebarsContent : String :=
  "/**\n * Автоматически сгенерированный sidebars.js\n * \n * Если вы хотите ручную структуру — создайте sidebars.js сами,\n * и генерация будет пропущена.\n */\n\n// @ts-check\n\n/** @type \x7bimport(\x27@docusaurus/plugin-content-docs\x27).SidebarsConfig\x7d */\nconst sidebars = \x7b\n  tutorialSidebar: [\n    \x7b\n      type: \x27autogenerated\x27,\n      dirName: \x27.\x27,\n    \x7d,\n  ],\n\x7d;\n\nexport default sidebars;\n"

/-- `generateSidebars` (src/unnamed/part_000 lines 194-226): skip when
`sidebars.js` already exists, otherwise write the template. -/
def generateSidebars (m : FS) : FS :=
  if (m sidebarsPathKey).isSome then m
  else setK m sidebarsPathKey (Node.file Part000.sidebarsContent)

end Part000

/-- The watch-mode configuration of `sync-filesystem-watch.js` (lines 20-35). -/
structure WatchConfig where
  ignored : List String
  debounceMs : Nat

/-- The `config` object of `sync-filesystem-watch.js`, verbatim. -/
def watchConfig : WatchConfig :=
  { ignored := ["**/node_modules/**", "**/.git/**", "**/build/**",
      "**/.docusaurus/**", "**/docs/**"]
    debounceMs := 1000 }

/-- The debounce state of the watch controller: the deadline of the armed
timer, if one is pending (`syncTimeout` in the source). -/
structure WatchState where
  pending : Option Nat

/-- `scheduleSync` (sync-filesystem-watch.js lines 46-62), as a state
transition at the moment `now`: `clearTimeout` of any pending timer and
`setTimeout` of a fresh one a full debounce window later. -/
def scheduleSync (now : Nat) (_s : WatchState) : WatchState :=
  { pending := some (now + watchConfig.debounceMs) }

/-- Run the watch controller over a time-ordered list of observed event
times starting from state `s`, returning the start times of the resync
passes the timer triggers.  A pending timer with deadline `d` fires before
any event at time `t ≥ d`; after the whole burst the pending timer, if any,
fires. -/
def processEvents : List Nat → WatchState → List Nat
  | [], s =>
      match s.pending with
      | some d => [d]
      | none => []
  | t :: rest, s =>
      match s.pending with
      | some d =>
          if d ≤ t then d :: processEvents rest (scheduleSync t { pending := none })
          else processEvents rest (scheduleSync t s)
      | none => processEvents rest (scheduleSync t s)

/-- Gaps inside an event burst: each event happens no earlier than the
previous one and strictly less than one debounce window after it. -/
def burstAfter (t : Nat) : List Nat → Bool
  | [] => true
  | t' :: rest =>
      decide (t ≤ t') && decide (t' < t + watchConfig.debounceMs) && burstAfter t' rest

/-- The time of the last event of `t :: ts`. -/
def lastTime (t : Nat) : List Nat → Nat
  | [] => t
  | t' :: rest => lastTime t' rest

/-- The full watch-controller state: the debounce timer plus whether the
watcher process is still observing (set to false only by the SIGINT
handler, sync-filesystem-watch.js lines 120-124). -/
structure WatcherCtl where
  pending : Option Nat
  alive : Bool

/-- The body of the debounce timer callback (sync-filesystem-watch.js
lines 51-61): the resync attempt (`syncDirectory` followed by
`generateSidebars`) is wrapped in try/catch, modelled by an `Except`
outcome; on success the completion line is logged, on error the error is
logged; in both cases the timer is spent and the watcher stays alive. -/
def fireResync (s : WatcherCtl) (resync : Except String Unit) :
    WatcherCtl × List String :=
  match resync with
  | Except.ok _ => ({ pending := none, alive := s.alive }, ["✅ Sync complete"])
  | Except.error msg =>
      ({ pending := none, alive := s.alive }, ["❌ Sync error: " ++ msg])

/-- The SIGINT handler (sync-filesystem-watch.js lines 120-124): the only
transition that stops the watcher. -/
def onSigint (s : WatcherCtl) : WatcherCtl :=
  { pending := s.pending, alive := false }

/-! ### Primitive filesystem effects of a sync pass

A sync pass only performs three kinds of primitive filesystem effects:
`ensureDir` (create a directory tree only when the directory is absent),
unconditional file writes whose content is determined by the source tree,
and conditional writes that fire only when the key is absent
(`createIndexFile`).  The pass is re-expressed as the execution of a list of
such effects; the list itself depends only on the source tree, which is the
backbone of the idempotence and exclusion proofs. -/

/-- A primitive filesystem effect performed by a sync pass. -/
inductive Op where
  | ensure (p : Path) : Op
  | write (p : Path) (v : Node) : Op
  | condWrite (p : Path) (v : Node) : Op

/-- Semantics of one primitive effect. -/
def applyOp (m : FS) : Op → FS
  | Op.ensure p => ensureDir m p
  | Op.write p v => setK m p v
  | Op.condWrite p v => if (m p).isSome then m else setK m p v

/-- Execute a list of effects in order. -/
def exec (m : FS) (ops : List Op) : FS :=
  ops.foldl applyOp m

/-- The guard keys of an effect: the keys whose presence makes the effect a
no-op. -/
def guardsOf : Op → List Path
  | Op.ensure p => [p]
  | Op.write _ _ => []
  | Op.condWrite p _ => [p]

/-- All guard keys of a list of effects. -/
def guards : List Op → List Path
  | [] => []
  | o :: rest => guardsOf o ++ guards rest

/-- The unconditional writes of a list of effects, in order. -/
def writesOf : List Op → List (Path × Node)
  | [] => []
  | Op.write p v :: rest => (p, v) :: writesOf rest
  | Op.ensure _ :: rest => writesOf rest
  | Op.condWrite _ _ :: rest => writesOf rest

/-- Execute unconditional writes only. -/
def execW (m : FS) (ws : List (Path × Node)) : FS :=
  ws.foldl (fun acc pv => setK acc pv.1 pv.2) m

/-- The value of the last write to key `p` in a list of writes, if any. -/
def lastW : List (Path × Node) → Path → Option Node
  | [], _ => none
  | (q, v) :: ws, p =>
      match lastW ws p with
      | some w => some w
      | none => if q = p then some v else none

/-- All keys an effect can modify. -/
def keysOf : Op → List Path
  | Op.ensure p => prefixesOf p
  | Op.write p _ => [p]
  | Op.condWrite p _ => [p]

/-- The effect trace of the `items.forEach` loop of `syncDirectory` over a
list of source entries (mirrors `syncList`). -/
def traceF : List SEntry → Path → List Op
  | [], _ => []
  | SEntry.file name content :: rest, tgt =>
      (if shouldSyncFile name then
        [Op.ensure tgt,
         Op.write (tgt ++ [name]) (Node.file (ensureFrontmatter name content))]
       else []) ++ traceF rest tgt
  | SEntry.dir name children :: rest, tgt =>
      (if isExcludedDir name then []
       else
         Op.ensure (tgt ++ [name]) :: traceF children (tgt ++ [name]) ++
           [Op.condWrite (tgt ++ [name] ++ ["index.md"])
             (Node.file (indexContent name))]) ++ traceF rest tgt

/-- The effect trace of a full `syncDirectory` call. -/
def traceRun (entries : List SEntry) (tgt : Path) : List Op :=
  Op.ensure tgt :: traceF entries tgt

/-- A target-relative path is clean when none of its components except
possibly the last one is an excluded directory name; every key a sync pass
touches strictly below the target root is clean (`Path.dropLast` drops the
final component, which may be a file name). -/
def CleanRel (rel : Path) : Prop :=
  ∀ c ∈ rel.dropLast, isExcludedDir c = false

/-! ### Basic lemmas about the primitive effects -/

theorem setK_eval (m : FS) (p : Path) (v : Node) (q : Path) :
    setK m p v q = if q = p then some v else m q := rfl

theorem setK_self (m : FS) (p : Path) (v : Node) : setK m p v p = some v := by
  simp [setK]

theorem setK_ne (m : FS) (p : Path) (v : Node) (q : Path) (h : q ≠ p) :
    setK m p v q = m q := by
  simp [setK, h]

theorem setK_isSome (m : FS) (p q : Path) (v : Node) (h : (m q).isSome) :
    (setK m p v q).isSome := by
  by_cases hq : q = p <;> simp [setK, hq, h]

/-- The step function folded by `mkdirAll`. -/
def mkdirStep (acc : FS) (q : Path) : FS :=
  if (acc q).isSome then acc else setK acc q Node.dir

theorem mkdirAll_eq_foldl (m : FS) (p : Path) :
    mkdirAll m p = (prefixesOf p).foldl mkdirStep m := rfl

theorem foldl_mkdirStep_keep (l : List Path) (m : FS) (q : Path) (x : Node)
    (h : m q = some x) : (l.foldl mkdirStep m) q = some x := by
  induction l generalizing m with
  | nil => exact h
  | cons r rest ih =>
      refine ih (mkdirStep m r) ?_
      by_cases hr : (m r).isSome
      · simpa [mkdirStep, hr] using h
      · have hqr : q ≠ r := by
          intro hc
          rw [hc] at h
          exact hr (by simp [h])
        simpa [mkdirStep, hr, setK, hqr] using h

theorem foldl_mkdirStep_isSome (l : List Path) (m : FS) (q : Path)
    (h : (m q).isSome) : ((l.foldl mkdirStep m) q).isSome := by
  rcases Option.isSome_iff_exists.mp h with ⟨x, hx⟩
  exact (foldl_mkdirStep_keep l m q x hx) ▸ rfl

theorem foldl_mkdirStep_mem (l : List Path) (m : FS) (q : Path) (h : q ∈ l) :
    ((l.foldl mkdirStep m) q).isSome := by
  induction l generalizing m with
  | nil => cases h
  | cons r rest ih =>
      rcases List.mem_cons.mp h with hq | hq
      · subst hq
        refine foldl_mkdirStep_isSome rest (mkdirStep m q) q ?_
        by_cases hr : (m q).isSome
        · simp [mkdirStep, hr]
        · simp [mkdirStep, hr, setK]
      · exact ih (mkdirStep m r) hq

theorem foldl_mkdirStep_untouched (l : List Path) (m : FS) (q : Path)
    (h : q ∉ l) : (l.foldl mkdirStep m) q = m q := by
  induction l generalizing m with
  | nil => rfl
  | cons r rest ih =>
      have hqr : q ≠ r := fun hc => h (hc ▸ List.mem_cons_self r rest)
      have hrest : q ∉ rest := fun hc => h (List.mem_cons_of_mem r hc)
      have hstep : mkdirStep m r q = m q := by
        by_cases hr : (m r).isSome
        · simp [mkdirStep, hr]
        · simp [mkdirStep, hr, setK, hqr]
      rw [List.foldl_cons, ih (mkdirStep m r) hrest, hstep]

theorem self_mem_prefixesOf (p : Path) : p ∈ prefixesOf p := by
  refine List.mem_map.mpr ⟨p.length, List.mem_range.mpr (Nat.lt_succ_self _), ?_⟩
  exact List.take_length p

theorem mem_prefixesOf_iff (q p : Path) : q ∈ prefixesOf p ↔ q <+: p := by
  constructor
  · intro h
    rcases List.mem_map.mp h with ⟨i, _, hi⟩
    exact hi ▸ List.take_prefix i p
  · intro h
    refine List.mem_map.mpr ⟨q.length, ?_, ?_⟩
    · exact List.mem_range.mpr (Nat.lt_succ_of_le h.length_le)
    · exact (List.prefix_iff_eq_take.mp h).symm

theorem ensureDir_keep (m : FS) (p q : Path) (x : Node) (h : m q = some x) :
    (ensureDir m p) q = some x := by
  unfold ensureDir
  split
  · exact h
  · exact foldl_mkdirStep_keep _ m q x h

theorem ensureDir_mono (m : FS) (p q : Path) (h : (m q).isSome) :
    ((ensureDir m p) q).isSome := by
  rcases Option.isSome_iff_exists.mp h with ⟨x, hx⟩
  exact (ensureDir_keep m p q x hx) ▸ rfl

theorem ensureDir_self_isSome (m : FS) (p : Path) :
    ((ensureDir m p) p).isSome := by
  unfold ensureDir
  split
  · assumption
  · exact foldl_mkdirStep_mem _ m p (self_mem_prefixesOf p)

theorem ensureDir_untouched (m : FS) (p q : Path) (h : ¬ q <+: p) :
    (ensureDir m p) q = m q := by
  unfold ensureDir
  split
  · rfl
  · exact foldl_mkdirStep_untouched _ m q (fun hc => h ((mem_prefixesOf_iff q p).mp hc))

/-! ### Lemmas about `applyOp` and `exec` -/

theorem applyOp_mono (m : FS) (o : Op) (q : Path) (h : (m q).isSome) :
    ((applyOp m o) q).isSome := by
  cases o with
  | ensure p => exact ensureDir_mono m p q h
  | write p v => exact setK_isSome m p q v h
  | condWrite p v =>
      simp only [applyOp]
      split
      · exact h
      · exact setK_isSome m p q v h

theorem applyOp_guard (m : FS) (o : Op) (q : Path) (h : q ∈ guardsOf o) :
    ((applyOp m o) q).isSome := by
  cases o with
  | ensure p =>
      have hq : q = p := by simpa [guardsOf] using h
      exact hq ▸ ensureDir_self_isSome m p
  | write p v => simp [guardsOf] at h
  | condWrite p v =>
      have hq : q = p := by simpa [guardsOf] using h
      subst hq
      simp only [applyOp]
      split
      · assumption
      · simp [setK]

theorem applyOp_untouched (m : FS) (o : Op) (q : Path) (h : q ∉ keysOf o) :
    (applyOp m o) q = m q := by
  cases o with
  | ensure p =>
      exact ensureDir_untouched m p q (fun hc => h ((mem_prefixesOf_iff q p).mpr hc))
  | write p v =>
      have hq : q ≠ p := by simpa [keysOf] using h
      exact setK_ne m p v q hq
  | condWrite p v =>
      have hq : q ≠ p := by simpa [keysOf] using h
      simp only [applyOp]
      split
      · rfl
      · exact setK_ne m p v q hq

theorem exec_nil (m : FS) : exec m [] = m := rfl

theorem exec_cons (m : FS) (o : Op) (ops : List Op) :
    exec m (o :: ops) = exec (applyOp m o) ops := rfl

theorem exec_append (m : FS) (ops₁ ops₂ : List Op) :
    exec m (ops₁ ++ ops₂) = exec (exec m ops₁) ops₂ :=
  List.foldl_append _ _ _ _

theorem exec_mono (ops : List Op) (m : FS) (q : Path) (h : (m q).isSome) :
    ((exec m ops) q).isSome := by
  induction ops generalizing m with
  | nil => exact h
  | cons o rest ih => exact ih (applyOp m o) (applyOp_mono m o q h)

theorem exec_untouched (ops : List Op) (m : FS) (q : Path)
    (h : ∀ o ∈ ops, q ∉ keysOf o) : (exec m ops) q = m q := by
  induction ops generalizing m with
  | nil => rfl
  | cons o rest ih =>
      rw [exec_cons, ih (applyOp m o) (fun o' ho' => h o' (List.mem_cons_of_mem o ho')),
        applyOp_untouched m o q (h o (List.mem_cons_self o rest))]

theorem exec_guards_present (ops : List Op) (m : FS) (q : Path)
    (h : q ∈ guards ops) : ((exec m ops) q).isSome := by
  induction ops generalizing m with
  | nil => cases h
  | cons o rest ih =>
      rcases List.mem_append.mp (by simpa [guards] using h) with hq | hq
      · exact exec_mono rest (applyOp m o) q (applyOp_guard m o q hq)
      · exact ih (applyOp m o) hq

/-! ### Idempotence of effect execution

After one execution every guard key is present, so a second execution
degenerates to replaying the unconditional writes; and replaying the
unconditional writes leaves the state fixed because the last write to each
key determined that key's value already. -/

theorem exec_persist (ops : List Op) (m : FS) (p : Path) (x : Node)
    (hw : lastW (writesOf ops) p = none) (h : m p = some x) :
    (exec m ops) p = some x := by
  induction ops generalizing m with
  | nil => exact h
  | cons o rest ih =>
      cases o with
      | write q w =>
          have hws : writesOf (Op.write q w :: rest) = (q, w) :: writesOf rest := rfl
          rw [hws] at hw
          cases h' : lastW (writesOf rest) p with
          | some w' => rw [lastW, h'] at hw; cases hw
          | none =>
              rw [lastW, h'] at hw
              have hqp : q ≠ p := by
                intro hc
                rw [if_pos hc] at hw
                cases hw
              rw [exec_cons]
              refine ih (setK m q w) h' ?_
              rw [setK_ne m q w p (fun hc => hqp hc.symm)]
              exact h
      | ensure q =>
          rw [exec_cons]
          exact ih (applyOp m (Op.ensure q)) hw (ensureDir_keep m q p x h)
      | condWrite q v =>
          rw [exec_cons]
          refine ih (applyOp m (Op.condWrite q v)) hw ?_
          simp only [applyOp]
          split
          · exact h
          · next hq =>
              have hqp : p ≠ q := by
                intro hc
                exact hq (by rw [← hc, h]; rfl)
              rw [setK_ne m q v p hqp]
              exact h

theorem exec_lastW_some (ops : List Op) (m : FS) (p : Path) (v : Node)
    (hw : lastW (writesOf ops) p = some v) : (exec m ops) p = some v := by
  induction ops generalizing m with
  | nil => cases hw
  | cons o rest ih =>
      cases o with
      | write q w =>
          have hws : writesOf (Op.write q w :: rest) = (q, w) :: writesOf rest := rfl
          rw [hws] at hw
          cases h' : lastW (writesOf rest) p with
          | some w' =>
              rw [lastW, h'] at hw
              cases hw
              exact ih (applyOp m (Op.write q w)) h'
          | none =>
              rw [lastW, h'] at hw
              by_cases hqp : q = p
              · rw [if_pos hqp] at hw
                cases hw
                subst hqp
                rw [exec_cons]
                exact exec_persist rest (setK m q v) q v h' (setK_self m q v)
              · rw [if_neg hqp] at hw
                cases hw
      | ensure q => exact ih (applyOp m (Op.ensure q)) hw
      | condWrite q w => exact ih (applyOp m (Op.condWrite q w)) hw

theorem execW_cons (m : FS) (q : Path) (w : Node) (ws : List (Path × Node)) :
    execW m ((q, w) :: ws) = execW (setK m q w) ws := rfl

theorem execW_eval_none (ws : List (Path × Node)) (m : FS) (p : Path)
    (hw : lastW ws p = none) : (execW m ws) p = m p := by
  induction ws generalizing m with
  | nil => rfl
  | cons qv ws ih =>
      obtain ⟨q, w⟩ := qv
      cases h' : lastW ws p with
      | some w' => rw [lastW, h'] at hw; cases hw
      | none =>
          rw [lastW, h'] at hw
          have hqp : q ≠ p := by
            intro hc
            rw [if_pos hc] at hw
            cases hw
          rw [execW_cons, ih (setK m q w) h']
          exact setK_ne m q w p (fun hc => hqp hc.symm)

theorem execW_eval_some (ws : List (Path × Node)) (m : FS) (p : Path) (v : Node)
    (hw : lastW ws p = some v) : (execW m ws) p = some v := by
  induction ws generalizing m with
  | nil => cases hw
  | cons qv ws ih =>
      obtain ⟨q, w⟩ := qv
      cases h' : lastW ws p with
      | some w' =>
          rw [lastW, h'] at hw
          cases hw
          exact ih (setK m q w) h'
      | none =>
          rw [lastW, h'] at hw
          by_cases hqp : q = p
          · rw [if_pos hqp] at hw
            cases hw
            subst hqp
            rw [execW_cons, execW_eval_none ws (setK m q v) q h']
            exact setK_self m q v
          · rw [if_neg hqp] at hw
            cases hw

theorem exec_skip_conds (ops : List Op) (m : FS)
    (h : ∀ q ∈ guards ops, (m q).isSome) :
    exec m ops = execW m (writesOf ops) := by
  induction ops generalizing m with
  | nil => rfl
  | cons o rest ih =>
      cases o with
      | ensure p =>
          have hp : (m p).isSome := h p (by simp [guards, guardsOf])
          have hskip : applyOp m (Op.ensure p) = m := by
            simp only [applyOp, ensureDir]
            rw [if_pos hp]
          rw [exec_cons, hskip]
          refine ih m (fun q hq => h q ?_)
          simp only [guards, guardsOf]
          exact List.mem_append.mpr (Or.inr hq)
      | condWrite p v =>
          have hp : (m p).isSome := h p (by simp [guards, guardsOf])
          have hskip : applyOp m (Op.condWrite p v) = m := by
            simp only [applyOp]
            rw [if_pos hp]
          rw [exec_cons, hskip]
          refine ih m (fun q hq => h q ?_)
          simp only [guards, guardsOf]
          exact List.mem_append.mpr (Or.inr hq)
      | write p v =>
          rw [exec_cons]
          have hws : writesOf (Op.write p v :: rest) = (p, v) :: writesOf rest := rfl
          rw [hws, execW_cons]
          refine ih (setK m p v) (fun q hq => setK_isSome m p q v (h q ?_))
          simp only [guards, guardsOf]
          exact List.mem_append.mpr (Or.inr hq)

/-- Executing the same effect list twice produces the same state as executing
it once. -/
theorem exec_idem (ops : List Op) (m : FS) :
    exec (exec m ops) ops = exec m ops := by
  funext p
  rw [exec_skip_conds ops (exec m ops) (fun q hq => exec_guards_present ops m q hq)]
  cases h : lastW (writesOf ops) p with
  | none => exact execW_eval_none _ _ _ h
  | some v =>
      rw [execW_eval_some _ _ _ _ h, exec_lastW_some ops m p v h]

/-! ### The sync pass as an effect trace -/

theorem syncFile_eq_ops (name content : String) (tgt : Path) (m : FS) :
    syncFile name content (tgt ++ [name]) m =
      exec m [Op.ensure tgt,
        Op.write (tgt ++ [name]) (Node.file (ensureFrontmatter name content))] := by
  simp only [syncFile, exec, List.foldl, applyOp, List.dropLast_concat]

theorem createIndexFile_eq_applyOp (dirPath : Path) (dirName : String) (m : FS) :
    createIndexFile dirPath dirName m =
      applyOp m (Op.condWrite (dirPath ++ ["index.md"])
        (Node.file (indexContent dirName))) := by
  simp only [createIndexFile, applyOp, config, Bool.not_true, Bool.false_eq_true,
    if_false]

theorem exec_singleton (m : FS) (o : Op) : exec m [o] = applyOp m o := rfl

/-- The recursive sync walk is the execution of its effect trace; the trace
depends only on the source entries and the target path, never on the
filesystem state. -/
theorem syncList_eq_exec : ∀ (es : List SEntry) (tgt : Path) (m : FS),
    syncList es tgt m = exec m (traceF es tgt)
  | [], _, _ => by simp [syncList, traceF, exec]
  | SEntry.file name content :: rest, tgt, m => by
      simp only [syncList, traceF]
      by_cases h : shouldSyncFile name
      · rw [if_pos h, if_pos h, exec_append, syncList_eq_exec rest tgt _,
          syncFile_eq_ops name content tgt m]
      · rw [if_neg h, if_neg h, List.nil_append, syncList_eq_exec rest tgt m]
  | SEntry.dir name children :: rest, tgt, m => by
      simp only [syncList, traceF]
      by_cases h : isExcludedDir name
      · rw [if_pos h, if_pos h, List.nil_append, syncList_eq_exec rest tgt m]
      · rw [if_neg h, if_neg h, exec_append, syncList_eq_exec rest tgt _]
        rw [createIndexFile_eq_applyOp, syncList_eq_exec children (tgt ++ [name]) _]
        have hcons : exec m (Op.ensure (tgt ++ [name]) ::
            traceF children (tgt ++ [name]) ++
              [Op.condWrite (tgt ++ [name] ++ ["index.md"])
                (Node.file (indexContent name))]) =
            exec (ensureDir m (tgt ++ [name]))
              (traceF children (tgt ++ [name]) ++
                [Op.condWrite (tgt ++ [name] ++ ["index.md"])
                  (Node.file (indexContent name))]) := rfl
        rw [hcons, exec_append, exec_singleton]
termination_by es _ _ => sizeOf es

/-- `syncDirectory` as a trace execution. -/
theorem syncDirectory_eq_exec (entries : List SEntry) (tgt : Path) (m : FS) :
    syncDirectory entries tgt m = exec m (traceRun entries tgt) := by
  rw [syncDirectory, syncList_eq_exec, traceRun, exec_cons]
  rfl

/-- Every key a trace effect can touch is either a prefix of the target
directory or lies below it along components that are not excluded directory
names (except possibly the final component). -/
theorem traceF_keys : ∀ (es : List SEntry) (tgt : Path) (o : Op) (p : Path),
    o ∈ traceF es tgt → p ∈ keysOf o →
    p <+: tgt ∨ ∃ rel, rel ≠ [] ∧ p = tgt ++ rel ∧ CleanRel rel
  | [], _, _, _, ho, _ => absurd ho (by simp [traceF])
  | SEntry.file name content :: rest, tgt, o, p, ho, hp => by
      simp only [traceF] at ho
      rcases List.mem_append.mp ho with hl | hr
      · by_cases h : shouldSyncFile name
        · rw [if_pos h] at hl
          rcases List.mem_cons.mp hl with he | hw
          · subst he
            exact Or.inl ((mem_prefixesOf_iff p tgt).mp (by simpa [keysOf] using hp))
          · have he : o = Op.write (tgt ++ [name])
                (Node.file (ensureFrontmatter name content)) := by
              simpa using hw
            subst he
            have hpe : p = tgt ++ [name] := by simpa [keysOf] using hp
            refine Or.inr ⟨[name], List.cons_ne_nil name [], hpe, ?_⟩
            intro c hc
            simp at hc
        · rw [if_neg h] at hl
          cases hl
      · exact traceF_keys rest tgt o p hr hp
  | SEntry.dir name children :: rest, tgt, o, p, ho, hp => by
      simp only [traceF] at ho
      rcases List.mem_append.mp ho with hl | hr
      · by_cases h : isExcludedDir name
        · rw [if_pos h] at hl
          cases hl
        · rw [if_neg h] at hl
          have hsplit : o = Op.ensure (tgt ++ [name]) ∨
              o ∈ traceF children (tgt ++ [name]) ∨
              o = Op.condWrite (tgt ++ [name] ++ ["index.md"])
                (Node.file (indexContent name)) := by
            rcases List.mem_cons.mp hl with he | hm
            · exact Or.inl he
            · rcases List.mem_append.mp hm with hm' | hm'
              · exact Or.inr (Or.inl hm')
              · exact Or.inr (Or.inr (by simpa using hm'))
          rcases hsplit with he | hm | he
          · subst he
            have hpre : p <+: tgt ++ [name] :=
              (mem_prefixesOf_iff p _).mp (by simpa [keysOf] using hp)
            rcases List.prefix_concat_iff.mp hpre with heq | hpre'
            · refine Or.inr ⟨[name], List.cons_ne_nil name [], heq, ?_⟩
              intro c hc
              simp at hc
            · exact Or.inl hpre'
          · rcases traceF_keys children (tgt ++ [name]) o p hm hp with hpre | hrel
            · rcases List.prefix_concat_iff.mp hpre with heq | hpre'
              · refine Or.inr ⟨[name], List.cons_ne_nil name [], heq, ?_⟩
                intro c hc
                simp at hc
              · exact Or.inl hpre'
            · rcases hrel with ⟨rel, hne, hpe, hclean⟩
              refine Or.inr ⟨name :: rel, List.cons_ne_nil name rel, ?_, ?_⟩
              · rw [hpe, List.append_assoc, List.singleton_append]
              · intro c hc
                rw [List.dropLast_cons_of_ne_nil hne] at hc
                rcases List.mem_cons.mp hc with hc' | hc'
                · subst hc'
                  exact Bool.not_eq_true _ ▸ (by simpa using h)
                · exact hclean c hc'
          · subst he
            have hpe : p = tgt ++ [name] ++ ["index.md"] := by
              simpa [keysOf] using hp
            refine Or.inr ⟨[name, "index.md"], List.cons_ne_nil _ _, ?_, ?_⟩
            · rw [hpe, List.append_assoc, List.singleton_append]
            · intro c hc
              simp only [List.dropLast] at hc
              rcases List.mem_singleton.mp (by simpa using hc) with hc'
              subst hc'
              simpa using h
      · exact traceF_keys rest tgt o p hr hp
termination_by es _ _ _ _ _ => sizeOf es

/-- No key lying strictly below an excluded directory component is ever
touched by a sync pass: if some component of `rel` other than the last one
is an excluded directory name, the key `tgt ++ rel` is left exactly as it
was. -/
theorem syncDirectory_untouched_below_excluded (entries : List SEntry)
    (tgt : Path) (m : FS) (rel : Path) (d : String)
    (hd : isExcludedDir d = true) (hmem : d ∈ rel.dropLast) :
    (syncDirectory entries tgt m) (tgt ++ rel) = m (tgt ++ rel) := by
  have hrelne : rel ≠ [] := by
    intro hc
    rw [hc] at hmem
    cases hmem
  rw [syncDirectory_eq_exec]
  refine exec_untouched _ m (tgt ++ rel) ?_
  intro o ho hp
  rcases List.mem_cons.mp ho with he | hf
  · subst he
    have hpre : (tgt ++ rel) <+: tgt :=
      (mem_prefixesOf_iff _ _).mp (by simpa [keysOf] using hp)
    have hlen := hpre.length_le
    rw [List.length_append] at hlen
    exact hrelne (List.length_eq_zero.mp (by omega))
  · rcases traceF_keys entries tgt o (tgt ++ rel) hf hp with hpre | ⟨rel2, _, heq, hclean⟩
    · have hlen := hpre.length_le
      rw [List.length_append] at hlen
      exact hrelne (List.length_eq_zero.mp (by omega))
    · have hrel : rel = rel2 := List.append_cancel_left heq
      rw [hrel] at hmem
      have hfalse := hclean d hmem
      rw [hfalse] at hd
      cases hd

/-! ### Claims -/

/-- C3: run-sync is idempotent.  For every source tree, target path, and
prior target-side state, running `syncDirectory` twice with the source
unchanged yields a target state identical to the one after the first run;
in particular the synthesized index files are not re-created or altered by
the second run. -/
theorem c3_run_sync_idempotent (entries : List SEntry) (tgt : Path) (m : FS) :
    syncDirectory entries tgt (syncDirectory entries tgt m) =
      syncDirectory entries tgt m := by
  rw [syncDirectory_eq_exec entries tgt m,
    syncDirectory_eq_exec entries tgt (exec m (traceRun entries tgt))]
  exact exec_idem (traceRun entries tgt) m

/-- C4: directory exclusion is decided on the name before recursion.  For a
directory whose name is in the excluded set, (1) processing the directory
entry is a no-op — the children, whatever they contain, are never descended
into — and (2) a full sync pass leaves every key lying strictly beneath any
path component with that name untouched, so no file below such a directory
ever appears in the target tree. -/
theorem c4_excluded_dir_never_descended (d : String)
    (hd : d ∈ config.excludeDirs) :
    (∀ children rest tgt m,
        syncList (SEntry.dir d children :: rest) tgt m = syncList rest tgt m)
    ∧ (∀ entries tgt m rel, d ∈ rel.dropLast →
        (syncDirectory entries tgt m) (tgt ++ rel) = m (tgt ++ rel)) := by
  have hx : isExcludedDir d = true := by
    simp only [isExcludedDir, Bool.or_eq_true]
    exact Or.inl (by simpa using hd)
  constructor
  · intro children rest tgt m
    simp only [syncList]
    rw [if_pos hx]
  · intro entries tgt m rel hmem
    exact syncDirectory_untouched_below_excluded entries tgt m rel d hx hmem

/-- Witness for C4 at `d := "node_modules"`: a `node_modules` directory
containing a syncable Markdown file contributes nothing to the pass, and a
sync into an empty target never creates `node_modules/a.md`. -/
theorem c4_excluded_dir_never_descended_witness :
    syncList [SEntry.dir "node_modules" [SEntry.file "x.md" "hello"]]
        ["docs"] (fun _ => none) =
      syncList [] ["docs"] (fun _ => none)
    ∧ (syncDirectory [] [] (fun _ => none)) ["node_modules", "a.md"] = none := by
  have h := c4_excluded_dir_never_descended "node_modules" (by decide)
  exact ⟨h.1 [SEntry.file "x.md" "hello"] [] ["docs"] (fun _ => none),
    h.2 [] [] (fun _ => none) ["node_modules", "a.md"] (by decide)⟩

/-- C5: hidden entries are always excluded.  For every name starting with
`.`, both the directory entry and the file entry with that name are ignored
by the pass — irrespective of the file's extension and of whether the name
occurs in the explicit exclusion lists. -/
theorem c5_hidden_entries_excluded (name : String)
    (h : jsStartsWith name "." = true) :
    (∀ children rest tgt m,
        syncList (SEntry.dir name children :: rest) tgt m = syncList rest tgt m)
    ∧ (∀ content rest tgt m,
        syncList (SEntry.file name content :: rest) tgt m = syncList rest tgt m) := by
  have hdir : isExcludedDir name = true := by
    simp [isExcludedDir, h]
  have hfile : shouldSyncFile name = false := by
    simp [shouldSyncFile, isExcludedFile, h]
  constructor
  · intro children rest tgt m
    simp only [syncList]
    rw [if_pos hdir]
  · intro content rest tgt m
    simp only [syncList]
    rw [if_neg (by simp [hfile])]

/-- Witness for C5 at `name := ".hidden.md"`: a hidden directory and a
hidden file — the latter with a syncable `.md` extension — are both
ignored. -/
theorem c5_hidden_entries_excluded_witness :
    syncList [SEntry.dir ".hidden.md" [SEntry.file "x.md" "hi"]]
        ["docs"] (fun _ => none) =
      syncList [] ["docs"] (fun _ => none)
    ∧ syncList [SEntry.file ".hidden.md" "hi"] ["docs"] (fun _ => none) =
      syncList [] ["docs"] (fun _ => none) := by
  have h := c5_hidden_entries_excluded ".hidden.md" (by decide)
  exact ⟨h.1 [SEntry.file "x.md" "hi"] [] ["docs"] (fun _ => none),
    h.2 "hi" [] ["docs"] (fun _ => none)⟩

/-- C1 (code bug): `generateSidebars` of `sync-filesystem.js` overwrites an
existing `sidebars.js` — starting from a state where the manifest holds the
content `"manual sidebars"`, the call replaces it with the generated
template, which differs from the prior content.  The sibling script
`src/unnamed/part_000` implements the behaviour the claim states: its
`generateSidebars` leaves the existing manifest untouched. -/
theorem c1_manifest_overwritten :
    (generateSidebars
        (setK (fun _ => none) sidebarsPathKey (Node.file "manual sidebars")))
      sidebarsPathKey = some (Node.file sidebarsContent)
    ∧ sidebarsContent ≠ "manual sidebars"
    ∧ (Part000.generateSidebars
        (setK (fun _ => none) sidebarsPathKey (Node.file "manual sidebars")))
      sidebarsPathKey = some (Node.file "manual sidebars") := by
  refine ⟨?_, by decide, ?_⟩
  · simp [generateSidebars, setK]
  · simp [Part000.generateSidebars, setK]

/-- C2 (counterexample): a source file whose content starts with a blank
line followed by `---` is detected as already having frontmatter
(`trim`-based check), so run-sync writes it byte-identically — and the
written content does not begin with the frontmatter marker, let alone a
non-empty frontmatter block. -/
theorem c2_counterexample :
    (syncList [SEntry.file "note.md" "\n--- x"] ["docs"] (fun _ => none))
        ["docs", "note.md"] = some (Node.file "\n--- x")
    ∧ jsStartsWith "\n--- x" "---" = false := by
  constructor
  · have h1 : shouldSyncFile "note.md" = true := by decide
    have h2 : ensureFrontmatter "note.md" "\n--- x" = "\n--- x" := by decide
    simp [syncList, h1, syncFile, h2, setK]
  · decide

/-- C2 (amended): every file written to the target tree has content
`ensureFrontmatter` of the source content: when the trimmed source content
starts with `---` the file is copied byte-identically, and otherwise a
synthesized frontmatter block is prepended — its title is the base name with
a trailing `.md`/`.mdx` stripped and `-`/`_` replaced by spaces — and only
in that case is the written content guaranteed to begin with the `---`
marker. -/
theorem c2_frontmatter_amended (name content : String) (tgt : Path) (m : FS)
    (h : shouldSyncFile name = true) :
    (syncList [SEntry.file name content] tgt m) (tgt ++ [name])
      = some (Node.file (ensureFrontmatter name content))
    ∧ (hasFrontmatter content = true → ensureFrontmatter name content = content)
    ∧ (hasFrontmatter content = false →
        ensureFrontmatter name content =
          "---\ntitle: " ++ sepsToSpaces (stripMdExt name) ++
            "\nsidebar_position: auto\n---\n\n" ++ content
        ∧ jsStartsWith (ensureFrontmatter name content) "---" = true) := by
  refine ⟨?_, ?_, ?_⟩
  · simp only [syncList]
    rw [if_pos h]
    simp [syncFile, setK]
  · intro h2
    simp [ensureFrontmatter, h2, config]
  · intro h2
    have he : ensureFrontmatter name content =
        "---\ntitle: " ++ sepsToSpaces (stripMdExt name) ++
          "\nsidebar_position: auto\n---\n\n" ++ content := by
      simp [ensureFrontmatter, h2, config, generateFrontmatter]
    refine ⟨he, ?_⟩
    rw [he]
    have hpre : ("---".data : List Char) <+:
        ("---\ntitle: " ++ sepsToSpaces (stripMdExt name) ++
          "\nsidebar_position: auto\n---\n\n" ++ content).data := by
      have hstep : ("---".data : List Char) <+: ("---\ntitle: ".data : List Char) := by
        decide
      calc ("---".data : List Char)
          <+: ("---\ntitle: ".data : List Char) := hstep
        _ <+: ("---\ntitle: " ++ sepsToSpaces (stripMdExt name) ++
            "\nsidebar_position: auto\n---\n\n" ++ content).data :=
          ⟨(sepsToSpaces (stripMdExt name)).data ++
            "\nsidebar_position: auto\n---\n\n".data ++ content.data, by
              simp [String.data_append, List.append_assoc]⟩
    simp only [jsStartsWith]
    exact List.isPrefixOf_iff_prefix.mpr hpre

/-- Witness for C2 (amended) at a concrete file without frontmatter. -/
theorem c2_frontmatter_amended_witness :
    (syncList [SEntry.file "my-note.md" "# T"] ["docs"] (fun _ => none))
        (["docs"] ++ ["my-note.md"])
      = some (Node.file (ensureFrontmatter "my-note.md" "# T"))
    ∧ ensureFrontmatter "my-note.md" "# T" =
        "---\ntitle: " ++ sepsToSpaces (stripMdExt "my-note.md") ++
          "\nsidebar_position: auto\n---\n\n" ++ "# T" := by
  have h := c2_frontmatter_amended "my-note.md" "# T" ["docs"] (fun _ => none)
    (by decide)
  exact ⟨h.1, (h.2.2 (by decide)).1⟩

/-- C8: frontmatter detection only inspects whether the trimmed content
starts with `---` (definitionally), and any synced file passing that check —
including a thematic break or leading blank lines with no closed block — is
written byte-identically with no frontmatter injected. -/
theorem c8_trim_prefix_detection (name content : String) (tgt : Path) (m : FS)
    (h1 : shouldSyncFile name = true) (h2 : hasFrontmatter content = true) :
    (syncList [SEntry.file name content] tgt m) (tgt ++ [name])
      = some (Node.file content)
    ∧ hasFrontmatter content = jsStartsWith (jsTrim content) "---" := by
  constructor
  · have he : ensureFrontmatter name content = content := by
      simp [ensureFrontmatter, h2, config]
    simp only [syncList]
    rw [if_pos h1]
    simp [syncFile, he, setK]
  · rfl

/-- Witness for C8: a file whose content is blank lines and an unclosed
`---` line is copied verbatim. -/
theorem c8_trim_prefix_detection_witness :
    (syncList [SEntry.file "a.md" "\n\n--- not closed\nbody"] ["docs"]
        (fun _ => none)) (["docs"] ++ ["a.md"])
      = some (Node.file "\n\n--- not closed\nbody") :=
  (c8_trim_prefix_detection "a.md" "\n\n--- not closed\nbody" ["docs"]
    (fun _ => none) (by decide) (by decide)).1

theorem createIndexFile_mono (dirPath : Path) (dirName : String) (m : FS)
    (q : Path) (h : (m q).isSome) :
    ((createIndexFile dirPath dirName m) q).isSome := by
  rw [createIndexFile_eq_applyOp]
  exact applyOp_mono m _ q h

theorem not_append_singleton_prefix (l : Path) (x : String) :
    ¬ (l ++ [x] <+: l) := by
  intro h
  have := h.length_le
  simp [List.length_append] at this

/-- C9: every non-excluded source directory is mirrored into the target
tree even when it contains no syncable entries: the corresponding target
directory exists after the pass, and (with the always-on
`createIndexFiles`) an `index.md` whose title is the directory name with
`-`/`_` replaced by spaces is synthesized there when absent, while a
pre-existing index is left untouched. -/
theorem c9_dirs_mirrored (name : String) (children : List SEntry) (tgt : Path)
    (m : FS) (h1 : isExcludedDir name = false) :
    ((syncList [SEntry.dir name children] tgt m) (tgt ++ [name])).isSome = true
    ∧ (m (tgt ++ [name] ++ ["index.md"]) = none →
        (syncList [SEntry.dir name []] tgt m) (tgt ++ [name] ++ ["index.md"])
          = some (Node.file ("---\ntitle: " ++ sepsToSpaces name ++
              "\nsidebar_position: 1\n---\n\n# " ++ sepsToSpaces name ++
              "\n\nЭта папка содержит документацию по теме \"" ++
              sepsToSpaces name ++
              "\".\n\n## Содержание\n\nВыберите раздел в боковом меню слева.\n")))
    ∧ (∀ v, m (tgt ++ [name] ++ ["index.md"]) = some v →
        (syncList [SEntry.dir name []] tgt m) (tgt ++ [name] ++ ["index.md"])
          = some v) := by
  have hneg : ¬ (isExcludedDir name = true) := by simp [h1]
  have hstep : ∀ cs, syncList [SEntry.dir name cs] tgt m =
      createIndexFile (tgt ++ [name]) name
        (syncList cs (tgt ++ [name]) (ensureDir m (tgt ++ [name]))) := by
    intro cs
    simp only [syncList]
    rw [if_neg hneg]
  have hnp : ¬ (tgt ++ [name] ++ ["index.md"] <+: tgt ++ [name]) :=
    not_append_singleton_prefix (tgt ++ [name]) "index.md"
  refine ⟨?_, ?_, ?_⟩
  · rw [hstep children]
    have hin : ((syncList children (tgt ++ [name])
        (ensureDir m (tgt ++ [name]))) (tgt ++ [name])).isSome := by
      rw [syncList_eq_exec]
      exact exec_mono _ _ _ (ensureDir_self_isSome m (tgt ++ [name]))
    exact createIndexFile_mono _ _ _ _ hin
  · intro hidx
    rw [hstep []]
    have hun : (syncList [] (tgt ++ [name]) (ensureDir m (tgt ++ [name])))
        (tgt ++ [name] ++ ["index.md"]) = none := by
      simp only [syncList]
      rw [ensureDir_untouched m _ _ hnp]
      exact hidx
    rw [show tgt ++ [name] ++ ["index.md"] = tgt ++ [name, "index.md"] from by
      simp] at hun
    simp [createIndexFile, hun, setK, config, indexContent]
  · intro v hv
    rw [hstep []]
    have hkeep : (syncList [] (tgt ++ [name]) (ensureDir m (tgt ++ [name])))
        (tgt ++ [name] ++ ["index.md"]) = some v := by
      simp only [syncList]
      rw [ensureDir_untouched m _ _ hnp]
      exact hv
    rw [show tgt ++ [name] ++ ["index.md"] = tgt ++ [name, "index.md"] from by
      simp] at hkeep
    simp [createIndexFile, hkeep, config]

/-- Witness for C9 at `name := "user-guide"`: a directory with only a
non-syncable child is still mirrored, and in an empty target the
synthesized `index.md` carries the title `user guide`. -/
theorem c9_dirs_mirrored_witness :
    ((syncList [SEntry.dir "user-guide" [SEntry.file "x.txt" "no"]] ["docs"]
        (fun _ => none)) (["docs"] ++ ["user-guide"])).isSome = true
    ∧ (syncList [SEntry.dir "user-guide" []] ["docs"] (fun _ => none))
        (["docs"] ++ ["user-guide"] ++ ["index.md"])
      = some (Node.file ("---\ntitle: " ++ sepsToSpaces "user-guide" ++
          "\nsidebar_position: 1\n---\n\n# " ++ sepsToSpaces "user-guide" ++
          "\n\nЭта папка содержит документацию по теме \"" ++
          sepsToSpaces "user-guide" ++
          "\".\n\n## Содержание\n\nВыберите раздел в боковом меню слева.\n")) := by
  have h1 := c9_dirs_mirrored "user-guide" [SEntry.file "x.txt" "no"] ["docs"]
    (fun _ => none) (by decide)
  have h2 := c9_dirs_mirrored "user-guide" [] ["docs"] (fun _ => none) (by decide)
  exact ⟨h1.1, h2.2.1 rfl⟩

/-- C10: the system never feeds its own output back into a sync pass:
`sidebars.js` is in the excluded-file set (so the generated manifest is
never copied), a file entry named `sidebars.js` is a no-op for the pass;
`docs` is in the excluded-directory set (so the target tree is never
re-read as input), a directory entry named `docs` is a no-op; and the
watcher's ignore list contains the `docs` glob. -/
theorem c10_no_feedback_loop :
    ("sidebars.js" ∈ config.excludeFiles)
    ∧ shouldSyncFile "sidebars.js" = false
    ∧ (∀ content rest tgt m,
        syncList (SEntry.file "sidebars.js" content :: rest) tgt m =
          syncList rest tgt m)
    ∧ ("docs" ∈ config.excludeDirs)
    ∧ isExcludedDir "docs" = true
    ∧ (∀ children rest tgt m,
        syncList (SEntry.dir "docs" children :: rest) tgt m =
          syncList rest tgt m)
    ∧ ("**/docs/**" ∈ watchConfig.ignored) := by
  refine ⟨by decide, by decide, ?_, by decide, by decide, ?_, by decide⟩
  · intro content rest tgt m
    simp only [syncList]
    rw [if_neg (by decide)]
  · intro children rest tgt m
    simp only [syncList]
    rw [if_pos (by decide)]

theorem processEvents_pending_burst : ∀ (ts : List Nat) (t : Nat),
    burstAfter t ts = true →
    processEvents ts { pending := some (t + watchConfig.debounceMs) } =
      [lastTime t ts + watchConfig.debounceMs]
  | [], t, _ => rfl
  | t' :: rest, t, h => by
      have hparts : (t ≤ t') ∧ (t' < t + watchConfig.debounceMs) ∧
          burstAfter t' rest = true := by
        simp only [burstAfter, Bool.and_eq_true, decide_eq_true_eq] at h
        exact ⟨h.1.1, h.1.2, h.2⟩
      obtain ⟨h1, h2, h3⟩ := hparts
      simp only [processEvents]
      rw [if_neg (by omega)]
      exact processEvents_pending_burst rest t' h3

/-- C6: the watch controller coalesces event bursts.  For every burst of
events whose gaps are all shorter than the debounce window, starting from
the idle state, exactly one resync fires, and it begins exactly one
debounce window after the last event of the burst (re-arming the single
timer cancels the previous one, so no second pass is ever scheduled). -/
theorem c6_debounce_coalesced (t : Nat) (ts : List Nat)
    (h : burstAfter t ts = true) :
    processEvents (t :: ts) { pending := none } =
      [lastTime t ts + watchConfig.debounceMs] := by
  have step : processEvents (t :: ts) { pending := none } =
      processEvents ts { pending := some (t + watchConfig.debounceMs) } := rfl
  rw [step]
  exact processEvents_pending_burst ts t h

/-- Witness for C6: the spec scenario — three events `0`, `100`, `200` ms
with a 1000 ms window produce exactly one resync, at `1200` ms. -/
theorem c6_debounce_coalesced_witness :
    processEvents [0, 100, 200] { pending := none } = [1200] :=
  c6_debounce_coalesced 0 [100, 200] (by decide)

/-- C7: every error during a debounce-triggered resync is caught: the
timer-callback transition on an error outcome leaves no pending timer (the
controller is idle again), does not change watcher liveness (only the
SIGINT handler `onSigint` does), and logs the error line. -/
theorem c7_resync_errors_caught (s : WatcherCtl) (msg : String) :
    (fireResync s (Except.error msg)).1.pending = none
    ∧ (fireResync s (Except.error msg)).1.alive = s.alive
    ∧ ("❌ Sync error: " ++ msg) ∈ (fireResync s (Except.error msg)).2 := by
  refine ⟨rfl, rfl, ?_⟩
  simp [fireResync]

end DocsSync
